import Mathlib

/-!
# Verification of the streaming SipHash-2-4 engine (`SipHash.h`)

A shallow embedding of the streaming SipHash engine from
`dbms/src/Common/SipHash.h`: the four-lane state, the incremental
`update` with its 8-byte carry buffer, `finalize`, and the digest
extractors, together with the convenience wrappers.  Machine `u64`
arithmetic is rendered as `Nat` with explicit reduction `% 2 ^ 64`;
the byte-addressable `current_word` union member is rendered as a
single `Nat` with little-endian byte accessors, matching the
little-endian hosts the source targets.  Input buffers are byte
lists; a second, pointer-style rendering (`SipHash.updateMem`) over
an address-indexed memory models the `const char * data / u64 size`
interface for the bounded-access property.
-/

/-- `ROTL(x,b)` macro: 64-bit left rotation, rendered on `Nat` with the
final `static_cast<u64>` as `% 2 ^ 64`. -/
def rotl (x b : Nat) : Nat :=
  ((x <<< b) ||| (x >>> (64 - b))) % 2 ^ 64

/-- `SIPROUND` macro: one SipRound over the four lanes, each mutation of
the C sequence rendered as a rebinding. -/
def sipRound : Nat × Nat × Nat × Nat → Nat × Nat × Nat × Nat
  | (v0, v1, v2, v3) =>
    let v0 := (v0 + v1) % 2 ^ 64
    let v1 := rotl v1 13
    let v1 := v1 ^^^ v0
    let v0 := rotl v0 32
    let v2 := (v2 + v3) % 2 ^ 64
    let v3 := rotl v3 16
    let v3 := v3 ^^^ v2
    let v0 := (v0 + v3) % 2 ^ 64
    let v3 := rotl v3 21
    let v3 := v3 ^^^ v0
    let v2 := (v2 + v1) % 2 ^ 64
    let v1 := rotl v1 17
    let v1 := v1 ^^^ v2
    let v2 := rotl v2 32
    (v0, v1, v2, v3)

/-- Read byte `i` of the little-endian 64-bit word `w`
(the `current_bytes[i]` view of the union). -/
def getByte (w i : Nat) : Nat :=
  (w >>> (8 * i)) % 256

/-- Write byte `i` of the little-endian word `w` to `b`
(`current_bytes[i] = b`, with the C implicit conversion to `u8`). -/
def setByte (w i b : Nat) : Nat :=
  w % 2 ^ (8 * i) + b % 256 * 2 ^ (8 * i) + (w >>> (8 * (i + 1))) <<< (8 * (i + 1))

/-- Assemble a byte list into the little-endian integer it denotes
(the `*reinterpret_cast<const u64 *>(data)` read, on a little-endian
host, when applied to the first 8 bytes). -/
def readLE : List Nat → Nat
  | [] => 0
  | b :: rest => b % 256 + 256 * readLE rest

/-- Write the bytes of `l` into `w` at consecutive byte positions
`i, i+1, ...` (the tail-copy `switch` of `update`, which fills
`current_bytes[0 .. r-1]`). -/
def writeBytes (w i : Nat) : List Nat → Nat
  | [] => w
  | b :: rest => writeBytes (setByte w i b) (i + 1) rest

/-- The engine state: four lanes, the running byte counter `cnt`, and
the carry-buffer union, kept as its `current_word` view. -/
@[ext] structure SipHash where
  v0 : Nat
  v1 : Nat
  v2 : Nat
  v3 : Nat
  cnt : Nat
  current_word : Nat
deriving Repr, DecidableEq

/-- The constructor `SipHash(u64 k0 = 0, u64 k1 = 0)`; the `% 2 ^ 64`
renders the `u64` parameter type. -/
def SipHash.init (k0 : Nat := 0) (k1 : Nat := 0) : SipHash :=
  { v0 := 0x736f6d6570736575 ^^^ k0 % 2 ^ 64
    v1 := 0x646f72616e646f6d ^^^ k1 % 2 ^ 64
    v2 := 0x6c7967656e657261 ^^^ k0 % 2 ^ 64
    v3 := 0x7465646279746573 ^^^ k1 % 2 ^ 64
    cnt := 0
    current_word := 0 }

/-- The recurring absorption block on the bare lanes:
`v3 ^= w; SIPROUND; SIPROUND; v0 ^= w;`. -/
def mixLanes (v : Nat × Nat × Nat × Nat) (w : Nat) : Nat × Nat × Nat × Nat :=
  let r := sipRound (sipRound (v.1, v.2.1, v.2.2.1, v.2.2.2 ^^^ w))
  (r.1 ^^^ w, r.2.1, r.2.2.1, r.2.2.2)

/-- The recurring absorption step of `update` and `finalize`:
`v3 ^= current_word; SIPROUND; SIPROUND; v0 ^= current_word;`. -/
def mixCurrent (s : SipHash) : SipHash :=
  let r := mixLanes (s.v0, s.v1, s.v2, s.v3) s.current_word
  { s with v0 := r.1, v1 := r.2.1, v2 := r.2.2.1, v3 := r.2.2.2 }

/-- The top-up loop of `update`:
`while (cnt & 7 && data < end) { current_bytes[cnt & 7] = *data; ++data; ++cnt; }`,
returning the state and the unconsumed input. -/
def fillCarry (s : SipHash) : List Nat → SipHash × List Nat
  | [] => (s, [])
  | b :: rest =>
    if s.cnt % 8 = 0 then (s, b :: rest)
    else
      fillCarry
        { s with current_word := setByte s.current_word (s.cnt % 8) b
                 cnt := (s.cnt + 1) % 2 ^ 64 } rest

/-- The main loop of `update` (`while (data + 8 <= end)`) followed by
the tail copy (`current_word = 0; switch (end - data) ...`). -/
def absorbWords (s : SipHash) : List Nat → SipHash
  | b0 :: b1 :: b2 :: b3 :: b4 :: b5 :: b6 :: b7 :: rest =>
    absorbWords
      (mixCurrent { s with current_word := readLE [b0, b1, b2, b3, b4, b5, b6, b7] }) rest
  | rest => { s with current_word := writeBytes 0 0 rest }

/-- `SipHash::update(const char * data, u64 size)`: the input buffer is
the byte list `data` (its length is `size`). -/
def SipHash.update (s : SipHash) (data : List Nat) : SipHash :=
  if s.cnt % 8 ≠ 0 then
    let p := fillCarry s data
    if p.1.cnt % 8 ≠ 0 then p.1
    else
      let s2 := mixCurrent p.1
      absorbWords { s2 with cnt := (s2.cnt + p.2.length) % 2 ^ 64 } p.2
  else
    absorbWords { s with cnt := (s.cnt + data.length) % 2 ^ 64 } data

/-- `SipHash::finalize()`: write `cnt` (as `u8`) into `current_bytes[7]`,
absorb the final word, XOR `0xff` into `v2`, four SipRounds. -/
def SipHash.finalize (s : SipHash) : SipHash :=
  let s := { s with current_word := setByte s.current_word 7 s.cnt }
  let s := mixCurrent s
  let r := sipRound (sipRound (sipRound (sipRound (s.v0, s.v1, s.v2 ^^^ 0xff, s.v3))))
  { s with v0 := r.1, v1 := r.2.1, v2 := r.2.2.1, v3 := r.2.2.2 }

/-- `SipHash::get64()`. -/
def SipHash.get64 (s : SipHash) : Nat :=
  let f := s.finalize
  f.v0 ^^^ f.v1 ^^^ f.v2 ^^^ f.v3

/-- `SipHash::get128(u64 & lo, u64 & hi)`, as the returned pair. -/
def SipHash.get128 (s : SipHash) : Nat × Nat :=
  let f := s.finalize
  (f.v0 ^^^ f.v1, f.v2 ^^^ f.v3)

/-- The 8 little-endian bytes of a 64-bit word, for the byte-buffer
digest form. -/
def toLEBytes (w : Nat) : List Nat :=
  [getByte w 0, getByte w 1, getByte w 2, getByte w 3,
   getByte w 4, getByte w 5, getByte w 6, getByte w 7]

/-- `SipHash::get128(char * out)`: the 16 bytes written through `out`,
two little-endian 64-bit stores, low word first. -/
def SipHash.get128Bytes (s : SipHash) : List Nat :=
  let f := s.finalize
  toLEBytes (f.v0 ^^^ f.v1) ++ toLEBytes (f.v2 ^^^ f.v3)

/-- `inline void sipHash128(const char * data, const size_t size, char * out)`. -/
def sipHash128 (data : List Nat) : List Nat :=
  let hash := SipHash.init
  let hash := hash.update data
  hash.get128Bytes

/-- `inline DB::UInt64 sipHash64(const char * data, const size_t size)`. -/
def sipHash64 (data : List Nat) : Nat :=
  let hash := SipHash.init
  let hash := hash.update data
  hash.get64

/-- `inline DB::UInt64 sipHash64(const std::string & s)`: forwards
`s.data(), s.size()`, i.e. exactly the byte content of `s`. -/
def sipHash64String (s : List Nat) : Nat :=
  sipHash64 s

/-! ## Pointer-style rendering of `update`

`SipHash::update` receives `const char * data, u64 size` and walks raw
pointers.  To state the bounded-access property we also embed it over an
address-indexed memory `mem : Nat → Nat`, with the data pointer at
address `p` and `end = e`; every memory read is explicit. -/

/-- The bytes `mem p, mem (p+1), ..., mem (p+n-1)`. -/
def bytesFrom (mem : Nat → Nat) (p : Nat) : Nat → List Nat
  | 0 => []
  | n + 1 => mem p :: bytesFrom mem (p + 1) n

/-- Pointer form of the top-up loop of `update`. -/
def fillCarryMem (s : SipHash) (mem : Nat → Nat) (p e : Nat) : SipHash × Nat :=
  if h : s.cnt % 8 ≠ 0 ∧ p < e then
    fillCarryMem
      { s with current_word := setByte s.current_word (s.cnt % 8) (mem p)
               cnt := (s.cnt + 1) % 2 ^ 64 } mem (p + 1) e
  else (s, p)
termination_by e - p
decreasing_by
  omega

/-- Pointer form of the whole-word loop of `update`. -/
def absorbWordsMem (s : SipHash) (mem : Nat → Nat) (p e : Nat) : SipHash × Nat :=
  if p + 8 ≤ e then
    absorbWordsMem
      (mixCurrent
        { s with current_word := readLE [mem p, mem (p + 1), mem (p + 2), mem (p + 3),
                                         mem (p + 4), mem (p + 5), mem (p + 6), mem (p + 7)] })
      mem (p + 8) e
  else (s, p)
termination_by e - p
decreasing_by
  omega

/-- Pointer form of `SipHash::update`: the buffer starts at address `p`
and `e = p + size` is one past its end. -/
def SipHash.updateMem (s : SipHash) (mem : Nat → Nat) (p e : Nat) : SipHash :=
  if s.cnt % 8 ≠ 0 then
    let q := fillCarryMem s mem p e
    if q.1.cnt % 8 ≠ 0 then q.1
    else
      let s2 := mixCurrent q.1
      let s3 := { s2 with cnt := (s2.cnt + (e - q.2)) % 2 ^ 64 }
      let r := absorbWordsMem s3 mem q.2 e
      { r.1 with current_word := writeBytes 0 0 (bytesFrom mem r.2 (e - r.2)) }
  else
    let s3 := { s with cnt := (s.cnt + (e - p)) % 2 ^ 64 }
    let r := absorbWordsMem s3 mem p e
    { r.1 with current_word := writeBytes 0 0 (bytesFrom mem r.2 (e - r.2)) }

/-! ## Characterization of reachable states

`absorbSpec s q` is the closed form of the state after an aligned `s`
(one with `cnt % 8 = 0` and an empty carry) absorbs the byte stream
`q`: full 8-byte words folded into the lanes, the counter advanced by
`q.length`, and the unmixed tail sitting zero-padded in the carry
buffer. -/

/-- Fold the full 8-byte words of a stream into the lanes. -/
def specLanes : Nat × Nat × Nat × Nat → List Nat → Nat × Nat × Nat × Nat
  | v, b0 :: b1 :: b2 :: b3 :: b4 :: b5 :: b6 :: b7 :: rest =>
    specLanes (mixLanes v (readLE [b0, b1, b2, b3, b4, b5, b6, b7])) rest
  | v, _ => v

/-- The trailing `length % 8` bytes of a stream. -/
def specTail : List Nat → List Nat
  | _ :: _ :: _ :: _ :: _ :: _ :: _ :: _ :: rest => specTail rest
  | rest => rest

/-- Closed form of the engine state after absorbing `q` from an aligned
state `s`. -/
def absorbSpec (s : SipHash) (q : List Nat) : SipHash :=
  let v := specLanes (s.v0, s.v1, s.v2, s.v3) q
  { v0 := v.1, v1 := v.2.1, v2 := v.2.2.1, v3 := v.2.2.2
    cnt := (s.cnt + q.length) % 2 ^ 64
    current_word := writeBytes 0 0 (specTail q) }

/-! ## Reference SipHash-2-4

A second definition, written from the spec's description of the
algorithm rather than from the engine: little-endian word assembly,
2 compression rounds per word, the length byte in the top byte of the
last word, 4 finalization rounds, digest `v0 ^ v1 ^ v2 ^ v3`.  It has
no streaming state; the engine is compared against it. -/

/-- Reference compression loop: each full little-endian word is XORed
into `v3`, two SipRounds are applied, and the word is XORed into `v0`. -/
def sipRefBlocks : Nat × Nat × Nat × Nat → List Nat → Nat × Nat × Nat × Nat
  | v, b0 :: b1 :: b2 :: b3 :: b4 :: b5 :: b6 :: b7 :: rest =>
    let w := readLE [b0, b1, b2, b3, b4, b5, b6, b7]
    let r := sipRound (sipRound (v.1, v.2.1, v.2.2.1, v.2.2.2 ^^^ w))
    sipRefBlocks (r.1 ^^^ w, r.2.1, r.2.2.1, r.2.2.2) rest
  | v, _ => v

/-- Reference: the bytes left over after the full words. -/
def sipRefRemainder : List Nat → List Nat
  | _ :: _ :: _ :: _ :: _ :: _ :: _ :: _ :: rest => sipRefRemainder rest
  | rest => rest

/-- Reference SipHash-2-4 of key `(k0, k1)` and message `m`. -/
def sipRef24 (k0 k1 : Nat) (m : List Nat) : Nat :=
  let v0 := 0x736f6d6570736575 ^^^ k0 % 2 ^ 64
  let v1 := 0x646f72616e646f6d ^^^ k1 % 2 ^ 64
  let v2 := 0x6c7967656e657261 ^^^ k0 % 2 ^ 64
  let v3 := 0x7465646279746573 ^^^ k1 % 2 ^ 64
  let v := sipRefBlocks (v0, v1, v2, v3) m
  let b := (m.length % 256) <<< 56 ||| readLE (sipRefRemainder m)
  let r := sipRound (sipRound (v.1, v.2.1, v.2.2.1, v.2.2.2 ^^^ b))
  let r := sipRound (sipRound (sipRound (sipRound (r.1 ^^^ b, r.2.1, r.2.2.1 ^^^ 0xff, r.2.2.2))))
  r.1 ^^^ r.2.1 ^^^ r.2.2.1 ^^^ r.2.2.2

/-! ## Inverse of the SipRound -/

/-- 64-bit wraparound subtraction, the inverse of `(x + y) % 2 ^ 64`. -/
def sub64 (x y : Nat) : Nat :=
  (x + (2 ^ 64 - y % 2 ^ 64)) % 2 ^ 64

/-- The inverse permutation of `sipRound`: the fourteen mutations
undone in reverse order. -/
def sipRoundInv : Nat × Nat × Nat × Nat → Nat × Nat × Nat × Nat
  | (v0, v1, v2, v3) =>
    let v2 := rotl v2 32
    let v1 := v1 ^^^ v2
    let v1 := rotl v1 47
    let v2 := sub64 v2 v1
    let v3 := v3 ^^^ v0
    let v3 := rotl v3 43
    let v0 := sub64 v0 v3
    let v3 := v3 ^^^ v2
    let v3 := rotl v3 48
    let v2 := sub64 v2 v3
    let v0 := rotl v0 32
    let v1 := v1 ^^^ v0
    let v1 := rotl v1 51
    let v0 := sub64 v0 v1
    (v0, v1, v2, v3)

/-! ## Arithmetic and byte-level lemmas -/

theorem mod64_lt (x : Nat) : x % 2 ^ 64 < 2 ^ 64 :=
  Nat.mod_lt _ (by norm_num)

theorem rotl_lt (x b : Nat) : rotl x b < 2 ^ 64 :=
  Nat.mod_lt _ (by norm_num)

theorem sub64_lt (x y : Nat) : sub64 x y < 2 ^ 64 :=
  Nat.mod_lt _ (by norm_num)

theorem xor64_lt {x y : Nat} (hx : x < 2 ^ 64) (hy : y < 2 ^ 64) : x ^^^ y < 2 ^ 64 :=
  Nat.xor_lt_two_pow hx hy

theorem mod64_mod8 (x : Nat) : x % 2 ^ 64 % 8 = x % 8 :=
  Nat.mod_mod_of_dvd x (by norm_num)

theorem mod64_mod256 (x : Nat) : x % 2 ^ 64 % 256 = x % 256 :=
  Nat.mod_mod_of_dvd x (by norm_num)

theorem pow8_le {i j : Nat} (h : i ≤ j) : (2 : Nat) ^ (8 * i) ≤ 2 ^ (8 * j) :=
  Nat.pow_le_pow_right (by norm_num) (by omega)

theorem pow8_succ (i : Nat) : (2 : Nat) ^ (8 * (i + 1)) = 2 ^ (8 * i) * 256 := by
  rw [show 8 * (i + 1) = 8 * i + 8 by ring, pow_add]
  norm_num

theorem setByte_eq_of_lt {w : Nat} (i b : Nat) (hw : w < 2 ^ (8 * i)) :
    setByte w i b = w + b % 256 * 2 ^ (8 * i) := by
  unfold setByte
  rw [Nat.mod_eq_of_lt hw, Nat.shiftRight_eq_div_pow,
    Nat.div_eq_of_lt (lt_of_lt_of_le hw (pow8_le (by omega))), Nat.zero_shiftLeft]
  omega

theorem setByte_mod256 (w i b : Nat) : setByte w i (b % 256) = setByte w i b := by
  unfold setByte
  rw [Nat.mod_mod_of_dvd b dvd_rfl]

theorem writeBytes_eq (l : List Nat) : ∀ (i w : Nat), w < 2 ^ (8 * i) →
    writeBytes w i l = w + 2 ^ (8 * i) * readLE l := by
  induction l with
  | nil => intro i w _; simp [writeBytes, readLE]
  | cons b rest ih =>
    intro i w hw
    have hb : b % 256 ≤ 255 := by omega
    have hstep : w + b % 256 * 2 ^ (8 * i) < 2 ^ (8 * (i + 1)) := by
      have h1 : w + b % 256 * 2 ^ (8 * i) < 2 ^ (8 * i) + 255 * 2 ^ (8 * i) :=
        Nat.add_lt_add_of_lt_of_le hw (Nat.mul_le_mul_right _ hb)
      calc w + b % 256 * 2 ^ (8 * i) < 2 ^ (8 * i) + 255 * 2 ^ (8 * i) := h1
        _ = 2 ^ (8 * i) * 256 := by ring
        _ = 2 ^ (8 * (i + 1)) := (pow8_succ i).symm
    rw [writeBytes, setByte_eq_of_lt i b hw, ih (i + 1) _ hstep, readLE, pow8_succ]
    ring

theorem writeBytes_readLE (l : List Nat) : writeBytes 0 0 l = readLE l := by
  have h := writeBytes_eq l 0 0 (by norm_num)
  simpa using h

theorem readLE_lt (l : List Nat) : readLE l < 2 ^ (8 * l.length) := by
  induction l with
  | nil => simp [readLE]
  | cons b rest ih =>
    rw [readLE, List.length_cons, pow8_succ]
    omega

theorem writeBytes_append (xs ys : List Nat) : ∀ w i,
    writeBytes w i (xs ++ ys) = writeBytes (writeBytes w i xs) (i + xs.length) ys := by
  induction xs with
  | nil => intro w i; simp [writeBytes]
  | cons b rest ih =>
    intro w i
    rw [List.cons_append, writeBytes, writeBytes, ih]
    congr 1
    simp
    omega

theorem getByte_eq_zero {w i j : Nat} (hw : w < 2 ^ (8 * i)) (hij : i ≤ j) :
    getByte w j = 0 := by
  unfold getByte
  rw [Nat.shiftRight_eq_div_pow, Nat.div_eq_of_lt (lt_of_lt_of_le hw (pow8_le hij))]

theorem getByte_readLE (l : List Nat) : ∀ i, i < l.length →
    getByte (readLE l) i = l.getD i 0 % 256 := by
  induction l with
  | nil => simp
  | cons b rest ih =>
    intro i hi
    cases i with
    | zero =>
      simp only [readLE, getByte, Nat.shiftRight_eq_div_pow, List.getD_cons_zero,
        Nat.mul_zero, pow_zero, Nat.div_one]
      omega
    | succ i =>
      have key : getByte (b % 256 + 256 * readLE rest) (i + 1) = getByte (readLE rest) i := by
        unfold getByte
        rw [Nat.shiftRight_eq_div_pow, Nat.shiftRight_eq_div_pow,
          show 8 * (i + 1) = 8 + 8 * i by ring, pow_add, ← Nat.div_div_eq_div_mul]
        congr 2
        norm_num
        omega
      rw [readLE, key, ih i (by simpa using Nat.lt_of_succ_lt_succ hi)]
      simp

/-! ## Induction by blocks of eight bytes -/

theorem chunk8_induction {P : List Nat → Prop}
    (hsmall : ∀ l : List Nat, l.length < 8 → P l)
    (hstep : ∀ (b0 b1 b2 b3 b4 b5 b6 b7 : Nat) (rest : List Nat),
      P rest → P (b0 :: b1 :: b2 :: b3 :: b4 :: b5 :: b6 :: b7 :: rest)) :
    ∀ l, P l := by
  have key : ∀ n (l : List Nat), l.length = n → P l := by
    intro n
    induction n using Nat.strong_induction_on with
    | _ n ih =>
      intro l hl
      by_cases h8 : l.length < 8
      · exact hsmall l h8
      · rcases l with _ | ⟨b0, _ | ⟨b1, _ | ⟨b2, _ | ⟨b3, _ | ⟨b4, _ | ⟨b5, _ | ⟨b6, _ | ⟨b7, rest⟩⟩⟩⟩⟩⟩⟩⟩ <;>
          simp only [List.length_nil, List.length_cons] at h8 hl ⊢ <;>
          try omega
        exact hstep b0 b1 b2 b3 b4 b5 b6 b7 rest (ih rest.length (by omega) rest rfl)
  exact fun l => key l.length l rfl

theorem length_eight_exists (blk : List Nat) (h : blk.length = 8) :
    ∃ b0 b1 b2 b3 b4 b5 b6 b7, blk = [b0, b1, b2, b3, b4, b5, b6, b7] := by
  rcases blk with _ | ⟨b0, _ | ⟨b1, _ | ⟨b2, _ | ⟨b3, _ | ⟨b4, _ | ⟨b5, _ | ⟨b6, _ | ⟨b7, rest⟩⟩⟩⟩⟩⟩⟩⟩ <;>
    simp only [List.length_nil, List.length_cons] at h <;> try omega
  have hrest : rest = [] := List.eq_nil_of_length_eq_zero (by omega)
  exact ⟨b0, b1, b2, b3, b4, b5, b6, b7, by rw [hrest]⟩

/-! ## Unfolding lemmas for the block recursions -/

theorem specLanes_small (v : Nat × Nat × Nat × Nat) (l : List Nat) (h : l.length < 8) :
    specLanes v l = v := by
  rcases l with _ | ⟨b0, _ | ⟨b1, _ | ⟨b2, _ | ⟨b3, _ | ⟨b4, _ | ⟨b5, _ | ⟨b6, _ | ⟨b7, rest⟩⟩⟩⟩⟩⟩⟩⟩ <;>
    simp only [List.length_nil, List.length_cons] at h <;> first | rfl | omega

theorem specTail_small (l : List Nat) (h : l.length < 8) : specTail l = l := by
  rcases l with _ | ⟨b0, _ | ⟨b1, _ | ⟨b2, _ | ⟨b3, _ | ⟨b4, _ | ⟨b5, _ | ⟨b6, _ | ⟨b7, rest⟩⟩⟩⟩⟩⟩⟩⟩ <;>
    simp only [List.length_nil, List.length_cons] at h <;> first | rfl | omega

theorem absorbWords_small (s : SipHash) (l : List Nat) (h : l.length < 8) :
    absorbWords s l = { s with current_word := writeBytes 0 0 l } := by
  rcases l with _ | ⟨b0, _ | ⟨b1, _ | ⟨b2, _ | ⟨b3, _ | ⟨b4, _ | ⟨b5, _ | ⟨b6, _ | ⟨b7, rest⟩⟩⟩⟩⟩⟩⟩⟩ <;>
    simp only [List.length_nil, List.length_cons] at h <;> first | rfl | omega

theorem sipRefBlocks_small (v : Nat × Nat × Nat × Nat) (l : List Nat) (h : l.length < 8) :
    sipRefBlocks v l = v := by
  rcases l with _ | ⟨b0, _ | ⟨b1, _ | ⟨b2, _ | ⟨b3, _ | ⟨b4, _ | ⟨b5, _ | ⟨b6, _ | ⟨b7, rest⟩⟩⟩⟩⟩⟩⟩⟩ <;>
    simp only [List.length_nil, List.length_cons] at h <;> first | rfl | omega

theorem sipRefRemainder_small (l : List Nat) (h : l.length < 8) : sipRefRemainder l = l := by
  rcases l with _ | ⟨b0, _ | ⟨b1, _ | ⟨b2, _ | ⟨b3, _ | ⟨b4, _ | ⟨b5, _ | ⟨b6, _ | ⟨b7, rest⟩⟩⟩⟩⟩⟩⟩⟩ <;>
    simp only [List.length_nil, List.length_cons] at h <;> first | rfl | omega

theorem sipRefBlocks_eq_specLanes : ∀ (l : List Nat) (v : Nat × Nat × Nat × Nat),
    sipRefBlocks v l = specLanes v l := by
  refine chunk8_induction ?_ ?_
  · intro l h v
    rw [sipRefBlocks_small v l h, specLanes_small v l h]
  · intro b0 b1 b2 b3 b4 b5 b6 b7 rest ih v
    have h1 : sipRefBlocks v (b0 :: b1 :: b2 :: b3 :: b4 :: b5 :: b6 :: b7 :: rest)
        = sipRefBlocks (mixLanes v (readLE [b0, b1, b2, b3, b4, b5, b6, b7])) rest := rfl
    have h2 : specLanes v (b0 :: b1 :: b2 :: b3 :: b4 :: b5 :: b6 :: b7 :: rest)
        = specLanes (mixLanes v (readLE [b0, b1, b2, b3, b4, b5, b6, b7])) rest := rfl
    rw [h1, h2, ih]

theorem sipRefRemainder_eq_specTail : ∀ l : List Nat, sipRefRemainder l = specTail l := by
  refine chunk8_induction ?_ ?_
  · intro l h
    rw [sipRefRemainder_small l h, specTail_small l h]
  · intro b0 b1 b2 b3 b4 b5 b6 b7 rest ih
    show sipRefRemainder rest = specTail rest
    exact ih

theorem specTail_length_lt : ∀ l : List Nat, (specTail l).length < 8 := by
  refine chunk8_induction ?_ ?_
  · intro l h
    rw [specTail_small l h]
    exact h
  · intro b0 b1 b2 b3 b4 b5 b6 b7 rest ih
    exact ih

theorem specTail_eq_drop : ∀ l : List Nat, specTail l = l.drop (l.length - l.length % 8) := by
  refine chunk8_induction ?_ ?_
  · intro l h
    rw [specTail_small l h, Nat.mod_eq_of_lt h]
    simp
  · intro b0 b1 b2 b3 b4 b5 b6 b7 rest ih
    show specTail rest = _
    rw [ih]
    have h1 : (b0 :: b1 :: b2 :: b3 :: b4 :: b5 :: b6 :: b7 :: rest).length = rest.length + 8 := by
      simp
    rw [h1]
    have h2 : rest.length + 8 - (rest.length + 8) % 8 = (rest.length - rest.length % 8) + 8 := by
      omega
    rw [h2]
    rfl

/-! ## Characterization of `fillCarry` -/

theorem fillCarry_aligned (s : SipHash) (l : List Nat) (h : s.cnt % 8 = 0) :
    fillCarry s l = (s, l) := by
  cases l with
  | nil => rfl
  | cons b rest => rw [fillCarry, if_pos h]

theorem fillCarry_eq : ∀ (m : List Nat) (s : SipHash) (r : Nat),
    s.cnt < 2 ^ 64 → s.cnt % 8 = r → 0 < r → r < 8 →
    fillCarry s m =
      if m.length < 8 - r then
        ({ s with current_word := writeBytes s.current_word r m
                  cnt := (s.cnt + m.length) % 2 ^ 64 }, [])
      else
        ({ s with current_word := writeBytes s.current_word r (m.take (8 - r))
                  cnt := (s.cnt + (8 - r)) % 2 ^ 64 }, m.drop (8 - r)) := by
  intro m
  induction m with
  | nil =>
    intro s r hlt hr hr0 hr8
    have h0 : fillCarry s [] = (s, []) := rfl
    rw [h0, if_pos (by simp only [List.length_nil]; omega)]
    simp only [writeBytes, List.length_nil, Nat.add_zero, Nat.mod_eq_of_lt hlt]
  | cons b rest ih =>
    intro s r hlt hr hr0 hr8
    have hstep : fillCarry s (b :: rest)
        = fillCarry { s with current_word := setByte s.current_word (s.cnt % 8) b, cnt := (s.cnt + 1) % 2 ^ 64 } rest := by
      rw [fillCarry, if_neg (by omega)]
    rw [hstep]
    have hcnt1 : ({ s with current_word := setByte s.current_word (s.cnt % 8) b, cnt := (s.cnt + 1) % 2 ^ 64 } : SipHash).cnt
        = (s.cnt + 1) % 2 ^ 64 := rfl
    by_cases h78 : r + 1 = 8
    · have hr7 : r = 7 := by omega
      subst hr7
      have haligned : ({ s with current_word := setByte s.current_word (s.cnt % 8) b, cnt := (s.cnt + 1) % 2 ^ 64 } : SipHash).cnt % 8 = 0 := by
        rw [hcnt1, mod64_mod8]
        omega
      rw [fillCarry_aligned _ _ haligned, if_neg (by simp only [List.length_cons]; omega)]
      simp only [Prod.mk.injEq, SipHash.mk.injEq, and_true, true_and]
      rw [hr]
      exact ⟨rfl, rfl⟩
    · have ih' := ih { s with current_word := setByte s.current_word (s.cnt % 8) b, cnt := (s.cnt + 1) % 2 ^ 64 } (r + 1)
        (mod64_lt _) (by rw [hcnt1, mod64_mod8]; omega) (by omega) (by omega)
      rw [ih']
      by_cases hlen : rest.length < 8 - (r + 1)
      · rw [if_pos hlen, if_pos (by simp only [List.length_cons]; omega)]
        simp only [Prod.mk.injEq, SipHash.mk.injEq, and_true, true_and]
        constructor
        · rw [Nat.mod_add_mod, List.length_cons]
          congr 1
          omega
        · rw [hr]
          rfl
      · rw [if_neg hlen, if_neg (by simp only [List.length_cons]; omega)]
        have htake : (b :: rest).take (8 - r) = b :: rest.take (8 - (r + 1)) := by
          rw [show 8 - r = (8 - (r + 1)) + 1 by omega, List.take_succ_cons]
        have hdrop : (b :: rest).drop (8 - r) = rest.drop (8 - (r + 1)) := by
          rw [show 8 - r = (8 - (r + 1)) + 1 by omega, List.drop_succ_cons]
        simp only [Prod.mk.injEq, SipHash.mk.injEq, and_true, true_and]
        refine ⟨⟨?_, ?_⟩, hdrop.symm⟩
        · rw [Nat.mod_add_mod]
          congr 1
          omega
        · rw [hr, htake]
          rfl

/-! ## Block-append unfoldings -/

theorem specLanes_block (v : Nat × Nat × Nat × Nat) (blk rest : List Nat) (h : blk.length = 8) :
    specLanes v (blk ++ rest) = specLanes (mixLanes v (readLE blk)) rest := by
  obtain ⟨b0, b1, b2, b3, b4, b5, b6, b7, hblk⟩ := length_eight_exists blk h
  subst hblk
  rfl

theorem specTail_block (blk rest : List Nat) (h : blk.length = 8) :
    specTail (blk ++ rest) = specTail rest := by
  obtain ⟨b0, b1, b2, b3, b4, b5, b6, b7, hblk⟩ := length_eight_exists blk h
  subst hblk
  rfl

/-! ## Characterization of `absorbWords` -/

theorem absorbWords_eq : ∀ (l : List Nat) (s : SipHash),
    absorbWords s l =
      { v0 := (specLanes (s.v0, s.v1, s.v2, s.v3) l).1
        v1 := (specLanes (s.v0, s.v1, s.v2, s.v3) l).2.1
        v2 := (specLanes (s.v0, s.v1, s.v2, s.v3) l).2.2.1
        v3 := (specLanes (s.v0, s.v1, s.v2, s.v3) l).2.2.2
        cnt := s.cnt
        current_word := writeBytes 0 0 (specTail l) } := by
  refine chunk8_induction ?_ ?_
  · intro l h s
    rw [absorbWords_small s l h, specLanes_small _ l h, specTail_small l h]
  · intro b0 b1 b2 b3 b4 b5 b6 b7 rest ih s
    show absorbWords (mixCurrent { s with current_word := readLE [b0, b1, b2, b3, b4, b5, b6, b7] }) rest = _
    rw [ih]
    rfl

/-! ## `update` from a characterized state -/

theorem update_absorbSpec_small (s0 : SipHash) (p m : List Nat)
    (h0 : s0.cnt % 8 = 0) (hp : p.length < 8) :
    (absorbSpec s0 p).update m = absorbSpec s0 (p ++ m) := by
  by_cases hp0 : p.length = 0
  · have hpnil : p = [] := List.eq_nil_of_length_eq_zero hp0
    subst hpnil
    rw [List.nil_append]
    have hc : ¬((absorbSpec s0 []).cnt % 8 ≠ 0) := by
      show ¬((s0.cnt + ([] : List Nat).length) % 2 ^ 64 % 8 ≠ 0)
      rw [mod64_mod8]
      simp only [List.length_nil, Nat.add_zero]
      omega
    simp only [SipHash.update]
    rw [if_neg hc, absorbWords_eq]
    unfold absorbSpec
    refine SipHash.ext rfl rfl rfl rfl ?_ rfl
    show ((s0.cnt + ([] : List Nat).length) % 2 ^ 64 + m.length) % 2 ^ 64 = (s0.cnt + m.length) % 2 ^ 64
    rw [Nat.mod_add_mod]
    simp
  · have hA : absorbSpec s0 p =
        { v0 := s0.v0, v1 := s0.v1, v2 := s0.v2, v3 := s0.v3, cnt := (s0.cnt + p.length) % 2 ^ 64, current_word := writeBytes 0 0 p } := by
      unfold absorbSpec
      rw [specLanes_small _ p hp, specTail_small p hp]
    rw [hA]
    set t : SipHash := { v0 := s0.v0, v1 := s0.v1, v2 := s0.v2, v3 := s0.v3, cnt := (s0.cnt + p.length) % 2 ^ 64, current_word := writeBytes 0 0 p } with ht
    have hcntt : t.cnt = (s0.cnt + p.length) % 2 ^ 64 := by rw [ht]
    have hwt : t.current_word = writeBytes 0 0 p := by rw [ht]
    have hcnt8 : t.cnt % 8 = p.length := by
      rw [hcntt, mod64_mod8]
      omega
    simp only [SipHash.update]
    rw [if_pos (by rw [hcnt8]; omega)]
    rw [fillCarry_eq m t p.length (by rw [hcntt]; exact mod64_lt _) hcnt8 (by omega) hp]
    by_cases hlen : m.length < 8 - p.length
    · rw [if_pos hlen]
      dsimp only
      have hS1cnt : (t.cnt + m.length) % 2 ^ 64 % 8 = p.length + m.length := by
        rw [mod64_mod8, hcntt]
        have hx := mod64_mod8 (s0.cnt + p.length)
        omega
      rw [if_pos (by rw [hS1cnt]; omega)]
      have hpm : (p ++ m).length < 8 := by
        rw [List.length_append]
        omega
      unfold absorbSpec
      rw [specLanes_small _ _ hpm, specTail_small _ hpm]
      refine SipHash.ext rfl rfl rfl rfl ?_ ?_
      · show (t.cnt + m.length) % 2 ^ 64 = (s0.cnt + (p ++ m).length) % 2 ^ 64
        rw [hcntt, Nat.mod_add_mod, List.length_append]
        congr 1
        omega
      · show writeBytes t.current_word p.length m = writeBytes 0 0 (p ++ m)
        rw [hwt, writeBytes_append, Nat.zero_add]
    · rw [if_neg hlen]
      dsimp only
      rw [if_neg (by omega)]
      rw [absorbWords_eq]
      have hW : writeBytes (writeBytes 0 0 p) p.length (m.take (8 - p.length))
          = readLE (p ++ m.take (8 - p.length)) := by
        rw [← writeBytes_readLE (p ++ m.take (8 - p.length)), writeBytes_append, Nat.zero_add]
      have hsplit : p ++ m = (p ++ m.take (8 - p.length)) ++ m.drop (8 - p.length) := by
        rw [List.append_assoc, List.take_append_drop]
      have hblk : (p ++ m.take (8 - p.length)).length = 8 := by
        rw [List.length_append, List.length_take]
        omega
      unfold absorbSpec
      rw [hsplit, specLanes_block _ _ _ hblk, specTail_block _ _ hblk]
      refine SipHash.ext ?_ ?_ ?_ ?_ ?_ rfl
      · rw [hW]; rfl
      · rw [hW]; rfl
      · rw [hW]; rfl
      · rw [hW]; rfl
      · show ((t.cnt + (8 - p.length)) % 2 ^ 64 + (m.drop (8 - p.length)).length) % 2 ^ 64
            = (s0.cnt + ((p ++ m.take (8 - p.length)) ++ m.drop (8 - p.length)).length) % 2 ^ 64
        rw [hcntt, List.length_append, List.length_append, List.length_take, List.length_drop]
        omega

theorem absorbSpec_cons8 (s0 : SipHash) (b0 b1 b2 b3 b4 b5 b6 b7 : Nat) (rest : List Nat) :
    absorbSpec s0 (b0 :: b1 :: b2 :: b3 :: b4 :: b5 :: b6 :: b7 :: rest)
      = absorbSpec
          { v0 := (mixLanes (s0.v0, s0.v1, s0.v2, s0.v3) (readLE [b0, b1, b2, b3, b4, b5, b6, b7])).1
            v1 := (mixLanes (s0.v0, s0.v1, s0.v2, s0.v3) (readLE [b0, b1, b2, b3, b4, b5, b6, b7])).2.1
            v2 := (mixLanes (s0.v0, s0.v1, s0.v2, s0.v3) (readLE [b0, b1, b2, b3, b4, b5, b6, b7])).2.2.1
            v3 := (mixLanes (s0.v0, s0.v1, s0.v2, s0.v3) (readLE [b0, b1, b2, b3, b4, b5, b6, b7])).2.2.2
            cnt := (s0.cnt + 8) % 2 ^ 64
            current_word := s0.current_word } rest := by
  unfold absorbSpec
  refine SipHash.ext rfl rfl rfl rfl ?_ rfl
  show (s0.cnt + (b0 :: b1 :: b2 :: b3 :: b4 :: b5 :: b6 :: b7 :: rest).length) % 2 ^ 64
      = ((s0.cnt + 8) % 2 ^ 64 + rest.length) % 2 ^ 64
  simp only [List.length_cons]
  omega

theorem update_absorbSpec : ∀ (q m : List Nat) (s0 : SipHash), s0.cnt % 8 = 0 →
    (absorbSpec s0 q).update m = absorbSpec s0 (q ++ m) := by
  refine chunk8_induction (P := fun q => ∀ (m : List Nat) (s0 : SipHash), s0.cnt % 8 = 0 →
    (absorbSpec s0 q).update m = absorbSpec s0 (q ++ m)) ?_ ?_
  · intro q hq m s0 h0
    exact update_absorbSpec_small s0 q m h0 hq
  · intro b0 b1 b2 b3 b4 b5 b6 b7 rest ih m s0 h0
    rw [absorbSpec_cons8]
    have h0' : (s0.cnt + 8) % 2 ^ 64 % 8 = 0 := by
      rw [mod64_mod8]
      omega
    rw [ih m _ h0']
    rw [show (b0 :: b1 :: b2 :: b3 :: b4 :: b5 :: b6 :: b7 :: rest) ++ m
        = b0 :: b1 :: b2 :: b3 :: b4 :: b5 :: b6 :: b7 :: (rest ++ m) from rfl]
    rw [absorbSpec_cons8]

theorem absorbSpec_nil_init (k0 k1 : Nat) :
    absorbSpec (SipHash.init k0 k1) [] = SipHash.init k0 k1 := rfl

theorem update_init_eq (k0 k1 : Nat) (m : List Nat) :
    (SipHash.init k0 k1).update m = absorbSpec (SipHash.init k0 k1) m := by
  have h := update_absorbSpec [] m (SipHash.init k0 k1) rfl
  rwa [absorbSpec_nil_init, List.nil_append] at h

theorem foldl_update_absorbSpec (k0 k1 : Nat) (chunks : List (List Nat)) :
    List.foldl SipHash.update (SipHash.init k0 k1) chunks
      = absorbSpec (SipHash.init k0 k1) chunks.flatten := by
  suffices h : ∀ (cs : List (List Nat)) (q : List Nat),
      List.foldl SipHash.update (absorbSpec (SipHash.init k0 k1) q) cs
        = absorbSpec (SipHash.init k0 k1) (q ++ cs.flatten) by
    have h2 := h chunks []
    rwa [absorbSpec_nil_init, List.nil_append] at h2
  intro cs
  induction cs with
  | nil =>
    intro q
    simp
  | cons c rest ih =>
    intro q
    rw [List.foldl_cons, update_absorbSpec q c (SipHash.init k0 k1) rfl, ih (q ++ c),
      List.flatten_cons, List.append_assoc]

/-! ## Digest-side lemmas -/

theorem sipRound_lt (v : Nat × Nat × Nat × Nat) :
    (sipRound v).1 < 2 ^ 64 ∧ (sipRound v).2.1 < 2 ^ 64 ∧ (sipRound v).2.2.1 < 2 ^ 64 ∧
      (sipRound v).2.2.2 < 2 ^ 64 := by
  obtain ⟨a, b, c, d⟩ := v
  exact ⟨mod64_lt _, xor64_lt (rotl_lt _ _) (mod64_lt _), rotl_lt _ _,
    xor64_lt (rotl_lt _ _) (mod64_lt _)⟩

theorem mixCurrent_v0 (s : SipHash) : (mixCurrent s).v0 =
    (sipRound (sipRound (s.v0, s.v1, s.v2, s.v3 ^^^ s.current_word))).1 ^^^ s.current_word := rfl

theorem mixCurrent_v1 (s : SipHash) : (mixCurrent s).v1 =
    (sipRound (sipRound (s.v0, s.v1, s.v2, s.v3 ^^^ s.current_word))).2.1 := rfl

theorem mixCurrent_v2 (s : SipHash) : (mixCurrent s).v2 =
    (sipRound (sipRound (s.v0, s.v1, s.v2, s.v3 ^^^ s.current_word))).2.2.1 := rfl

theorem mixCurrent_v3 (s : SipHash) : (mixCurrent s).v3 =
    (sipRound (sipRound (s.v0, s.v1, s.v2, s.v3 ^^^ s.current_word))).2.2.2 := rfl

theorem finalize_v0 (s : SipHash) : s.finalize.v0 =
    (sipRound (sipRound (sipRound (sipRound
      ((mixCurrent { s with current_word := setByte s.current_word 7 s.cnt }).v0,
       (mixCurrent { s with current_word := setByte s.current_word 7 s.cnt }).v1,
       (mixCurrent { s with current_word := setByte s.current_word 7 s.cnt }).v2 ^^^ 0xff,
       (mixCurrent { s with current_word := setByte s.current_word 7 s.cnt }).v3))))).1 := rfl

theorem finalize_v1 (s : SipHash) : s.finalize.v1 =
    (sipRound (sipRound (sipRound (sipRound
      ((mixCurrent { s with current_word := setByte s.current_word 7 s.cnt }).v0,
       (mixCurrent { s with current_word := setByte s.current_word 7 s.cnt }).v1,
       (mixCurrent { s with current_word := setByte s.current_word 7 s.cnt }).v2 ^^^ 0xff,
       (mixCurrent { s with current_word := setByte s.current_word 7 s.cnt }).v3))))).2.1 := rfl

theorem finalize_v2 (s : SipHash) : s.finalize.v2 =
    (sipRound (sipRound (sipRound (sipRound
      ((mixCurrent { s with current_word := setByte s.current_word 7 s.cnt }).v0,
       (mixCurrent { s with current_word := setByte s.current_word 7 s.cnt }).v1,
       (mixCurrent { s with current_word := setByte s.current_word 7 s.cnt }).v2 ^^^ 0xff,
       (mixCurrent { s with current_word := setByte s.current_word 7 s.cnt }).v3))))).2.2.1 := rfl

theorem finalize_v3 (s : SipHash) : s.finalize.v3 =
    (sipRound (sipRound (sipRound (sipRound
      ((mixCurrent { s with current_word := setByte s.current_word 7 s.cnt }).v0,
       (mixCurrent { s with current_word := setByte s.current_word 7 s.cnt }).v1,
       (mixCurrent { s with current_word := setByte s.current_word 7 s.cnt }).v2 ^^^ 0xff,
       (mixCurrent { s with current_word := setByte s.current_word 7 s.cnt }).v3))))).2.2.2 := rfl

theorem finalize_lanes_lt (s : SipHash) :
    s.finalize.v0 < 2 ^ 64 ∧ s.finalize.v1 < 2 ^ 64 ∧ s.finalize.v2 < 2 ^ 64 ∧
      s.finalize.v3 < 2 ^ 64 := by
  refine ⟨?_, ?_, ?_, ?_⟩
  · rw [finalize_v0]
    exact (sipRound_lt _).1
  · rw [finalize_v1]
    exact (sipRound_lt _).2.1
  · rw [finalize_v2]
    exact (sipRound_lt _).2.2.1
  · rw [finalize_v3]
    exact (sipRound_lt _).2.2.2

theorem readLE_toLEBytes (w : Nat) : readLE (toLEBytes w) = w % 2 ^ 64 := by
  simp only [toLEBytes, readLE, getByte, Nat.shiftRight_eq_div_pow]
  norm_num
  omega

/-- The lane/word computation shared by `finalize`-then-`get64`. -/
def finalizeLanes (v : Nat × Nat × Nat × Nat) (w : Nat) : Nat :=
  let r := sipRound (sipRound (v.1, v.2.1, v.2.2.1, v.2.2.2 ^^^ w))
  let r2 := sipRound (sipRound (sipRound (sipRound (r.1 ^^^ w, r.2.1, r.2.2.1 ^^^ 0xff, r.2.2.2))))
  r2.1 ^^^ r2.2.1 ^^^ r2.2.2.1 ^^^ r2.2.2.2

theorem finalizeLanes_explicit (v : Nat × Nat × Nat × Nat) (w : Nat) : finalizeLanes v w =
    (sipRound (sipRound (sipRound (sipRound
      ((sipRound (sipRound (v.1, v.2.1, v.2.2.1, v.2.2.2 ^^^ w))).1 ^^^ w,
       (sipRound (sipRound (v.1, v.2.1, v.2.2.1, v.2.2.2 ^^^ w))).2.1,
       (sipRound (sipRound (v.1, v.2.1, v.2.2.1, v.2.2.2 ^^^ w))).2.2.1 ^^^ 0xff,
       (sipRound (sipRound (v.1, v.2.1, v.2.2.1, v.2.2.2 ^^^ w))).2.2.2))))).1
    ^^^ (sipRound (sipRound (sipRound (sipRound
      ((sipRound (sipRound (v.1, v.2.1, v.2.2.1, v.2.2.2 ^^^ w))).1 ^^^ w,
       (sipRound (sipRound (v.1, v.2.1, v.2.2.1, v.2.2.2 ^^^ w))).2.1,
       (sipRound (sipRound (v.1, v.2.1, v.2.2.1, v.2.2.2 ^^^ w))).2.2.1 ^^^ 0xff,
       (sipRound (sipRound (v.1, v.2.1, v.2.2.1, v.2.2.2 ^^^ w))).2.2.2))))).2.1
    ^^^ (sipRound (sipRound (sipRound (sipRound
      ((sipRound (sipRound (v.1, v.2.1, v.2.2.1, v.2.2.2 ^^^ w))).1 ^^^ w,
       (sipRound (sipRound (v.1, v.2.1, v.2.2.1, v.2.2.2 ^^^ w))).2.1,
       (sipRound (sipRound (v.1, v.2.1, v.2.2.1, v.2.2.2 ^^^ w))).2.2.1 ^^^ 0xff,
       (sipRound (sipRound (v.1, v.2.1, v.2.2.1, v.2.2.2 ^^^ w))).2.2.2))))).2.2.1
    ^^^ (sipRound (sipRound (sipRound (sipRound
      ((sipRound (sipRound (v.1, v.2.1, v.2.2.1, v.2.2.2 ^^^ w))).1 ^^^ w,
       (sipRound (sipRound (v.1, v.2.1, v.2.2.1, v.2.2.2 ^^^ w))).2.1,
       (sipRound (sipRound (v.1, v.2.1, v.2.2.1, v.2.2.2 ^^^ w))).2.2.1 ^^^ 0xff,
       (sipRound (sipRound (v.1, v.2.1, v.2.2.1, v.2.2.2 ^^^ w))).2.2.2))))).2.2.2 := rfl

theorem get64_eq_finalizeLanes (s : SipHash) :
    s.get64 = finalizeLanes (s.v0, s.v1, s.v2, s.v3) (setByte s.current_word 7 s.cnt) := by
  rw [show s.get64 = s.finalize.v0 ^^^ s.finalize.v1 ^^^ s.finalize.v2 ^^^ s.finalize.v3 from rfl,
    finalize_v0, finalize_v1, finalize_v2, finalize_v3,
    mixCurrent_v0, mixCurrent_v1, mixCurrent_v2, mixCurrent_v3, finalizeLanes_explicit]

theorem init_v0 (k0 k1 : Nat) : (SipHash.init k0 k1).v0 = 0x736f6d6570736575 ^^^ k0 % 2 ^ 64 := rfl

theorem init_v1 (k0 k1 : Nat) : (SipHash.init k0 k1).v1 = 0x646f72616e646f6d ^^^ k1 % 2 ^ 64 := rfl

theorem init_v2 (k0 k1 : Nat) : (SipHash.init k0 k1).v2 = 0x6c7967656e657261 ^^^ k0 % 2 ^ 64 := rfl

theorem init_v3 (k0 k1 : Nat) : (SipHash.init k0 k1).v3 = 0x7465646279746573 ^^^ k1 % 2 ^ 64 := rfl

theorem sipRef24_decomp (k0 k1 : Nat) (m : List Nat) :
    sipRef24 k0 k1 m = finalizeLanes
      (sipRefBlocks ((SipHash.init k0 k1).v0, (SipHash.init k0 k1).v1,
        (SipHash.init k0 k1).v2, (SipHash.init k0 k1).v3) m)
      ((m.length % 256) <<< 56 ||| readLE (sipRefRemainder m)) := by
  rw [finalizeLanes_explicit, init_v0, init_v1, init_v2, init_v3]
  rfl

theorem get64_update_init_eq_ref (k0 k1 : Nat) (m : List Nat) :
    ((SipHash.init k0 k1).update m).get64 = sipRef24 k0 k1 m := by
  rw [update_init_eq, get64_eq_finalizeLanes, sipRef24_decomp]
  have hwlt : readLE (specTail m) < 2 ^ (8 * 7) :=
    lt_of_lt_of_le (readLE_lt _) (pow8_le (by have := specTail_length_lt m; omega))
  have hwlt56 : readLE (specTail m) < 2 ^ 56 := lt_of_lt_of_le hwlt (by norm_num)
  have h256 : (0 + m.length) % 2 ^ 64 % 256 = m.length % 256 := by
    rw [Nat.zero_add, mod64_mod256]
  have h56 : (2 : Nat) ^ (8 * 7) = 2 ^ 56 := by norm_num
  have harg1 : ((absorbSpec (SipHash.init k0 k1) m).v0, (absorbSpec (SipHash.init k0 k1) m).v1,
      (absorbSpec (SipHash.init k0 k1) m).v2, (absorbSpec (SipHash.init k0 k1) m).v3)
      = sipRefBlocks ((SipHash.init k0 k1).v0, (SipHash.init k0 k1).v1,
          (SipHash.init k0 k1).v2, (SipHash.init k0 k1).v3) m := by
    rw [sipRefBlocks_eq_specLanes]
    rfl
  have harg2 : setByte (absorbSpec (SipHash.init k0 k1) m).current_word 7
      (absorbSpec (SipHash.init k0 k1) m).cnt
      = (m.length % 256) <<< 56 ||| readLE (sipRefRemainder m) := by
    rw [sipRefRemainder_eq_specTail,
      show (absorbSpec (SipHash.init k0 k1) m).current_word = writeBytes 0 0 (specTail m) from rfl,
      writeBytes_readLE, setByte_eq_of_lt 7 _ hwlt,
      show (absorbSpec (SipHash.init k0 k1) m).cnt = (0 + m.length) % 2 ^ 64 from rfl,
      Nat.shiftLeft_eq,
      show m.length % 256 * 2 ^ 56 = 2 ^ 56 * (m.length % 256) from Nat.mul_comm _ _,
      ← Nat.mul_add_lt_is_or hwlt56 (m.length % 256), h256, h56]
    ring
  rw [harg1, harg2]

/-! ## Claim theorems -/

/-- C1: Streaming equivalence — for every seed and every partition of a
byte string into chunks, updating chunk-by-chunk and extracting a digest
(any of the three forms) gives exactly the digest of a single whole-string
update. -/
theorem siphash_streaming_equivalence (k0 k1 : Nat) (chunks : List (List Nat)) :
    (List.foldl SipHash.update (SipHash.init k0 k1) chunks).get64
        = ((SipHash.init k0 k1).update chunks.flatten).get64
      ∧ (List.foldl SipHash.update (SipHash.init k0 k1) chunks).get128
        = ((SipHash.init k0 k1).update chunks.flatten).get128
      ∧ (List.foldl SipHash.update (SipHash.init k0 k1) chunks).get128Bytes
        = ((SipHash.init k0 k1).update chunks.flatten).get128Bytes := by
  have h : List.foldl SipHash.update (SipHash.init k0 k1) chunks
      = (SipHash.init k0 k1).update chunks.flatten := by
    rw [foldl_update_absorbSpec, update_init_eq]
  rw [h]
  exact ⟨rfl, rfl, rfl⟩

/-- C10: a zero-length `update` leaves every reachable engine state
exactly unchanged, whether or not a partial word is pending. -/
theorem siphash_zero_length_update_identity (k0 k1 : Nat) (chunks : List (List Nat)) :
    (List.foldl SipHash.update (SipHash.init k0 k1) chunks).update []
      = List.foldl SipHash.update (SipHash.init k0 k1) chunks := by
  rw [foldl_update_absorbSpec,
    update_absorbSpec chunks.flatten [] (SipHash.init k0 k1) rfl, List.append_nil]

/-- C8: the convenience wrappers construct a fresh zero-seed engine,
absorb the whole input once, and extract; the string overload forwards
the byte content unchanged. -/
theorem siphash_wrapper_equivalence (data : List Nat) :
    sipHash64 data = ((SipHash.init 0 0).update data).get64
      ∧ sipHash128 data = ((SipHash.init 0 0).update data).get128Bytes
      ∧ sipHash64String data = sipHash64 data :=
  ⟨rfl, rfl, rfl⟩

/-- C5: the constructor XORs the four ASCII constants with the key
halves, zeroes the byte counter and the carry buffer, and is total. -/
theorem siphash_init_state (k0 k1 : Nat) (h0 : k0 < 2 ^ 64) (h1 : k1 < 2 ^ 64) :
    SipHash.init k0 k1 =
      { v0 := 0x736f6d6570736575 ^^^ k0
        v1 := 0x646f72616e646f6d ^^^ k1
        v2 := 0x6c7967656e657261 ^^^ k0
        v3 := 0x7465646279746573 ^^^ k1
        cnt := 0
        current_word := 0 } := by
  unfold SipHash.init
  rw [Nat.mod_eq_of_lt h0, Nat.mod_eq_of_lt h1]

theorem siphash_init_state_witness :
    (0x0706050403020100 : Nat) < 2 ^ 64 ∧ (0x0f0e0d0c0b0a0908 : Nat) < 2 ^ 64 ∧
      SipHash.init 0x0706050403020100 0x0f0e0d0c0b0a0908 =
        { v0 := 0x736f6d6570736575 ^^^ 0x0706050403020100
          v1 := 0x646f72616e646f6d ^^^ 0x0f0e0d0c0b0a0908
          v2 := 0x6c7967656e657261 ^^^ 0x0706050403020100
          v3 := 0x7465646279746573 ^^^ 0x0f0e0d0c0b0a0908
          cnt := 0
          current_word := 0 } :=
  ⟨by norm_num, by norm_num, siphash_init_state _ _ (by norm_num) (by norm_num)⟩

set_option maxHeartbeats 1600000 in
/-- C6: every digest extractor finalizes first; `get64` XORs all four
finalized lanes, both 128-bit forms produce low `v0 ^ v1` and high
`v2 ^ v3`, and the byte-buffer form writes the low then the high word
as two little-endian 64-bit words. -/
theorem siphash_digest_extraction (s : SipHash) :
    s.get64 = s.finalize.v0 ^^^ s.finalize.v1 ^^^ s.finalize.v2 ^^^ s.finalize.v3
      ∧ s.get128 = (s.finalize.v0 ^^^ s.finalize.v1, s.finalize.v2 ^^^ s.finalize.v3)
      ∧ s.get128Bytes
        = toLEBytes (s.finalize.v0 ^^^ s.finalize.v1) ++ toLEBytes (s.finalize.v2 ^^^ s.finalize.v3)
      ∧ readLE (s.get128Bytes.take 8) = s.get128.1
      ∧ readLE (s.get128Bytes.drop 8) = s.get128.2 := by
  refine ⟨rfl, rfl, rfl, ?_, ?_⟩
  · rw [show s.get128Bytes.take 8 = toLEBytes (s.finalize.v0 ^^^ s.finalize.v1) from rfl,
      readLE_toLEBytes]
    exact Nat.mod_eq_of_lt (xor64_lt (finalize_lanes_lt s).1 (finalize_lanes_lt s).2.1)
  · rw [show s.get128Bytes.drop 8 = toLEBytes (s.finalize.v2 ^^^ s.finalize.v3) from rfl,
      readLE_toLEBytes]
    exact Nat.mod_eq_of_lt (xor64_lt (finalize_lanes_lt s).2.2.1 (finalize_lanes_lt s).2.2.2)

set_option maxHeartbeats 1600000 in
/-- C3: `finalize` writes the low 8 bits of `cnt` into byte 7 of the
pending word, XORs that word into `v3`, runs exactly two SipRounds, XORs
it into `v0`, XORs `0xff` into `v2`, runs exactly four SipRounds, and
changes nothing else (`cnt` is kept; the carry word keeps the written
byte). -/
theorem siphash_finalize_steps (s : SipHash) :
    s.finalize =
      (let w := setByte s.current_word 7 (s.cnt % 256)
       let t := sipRound^[2] (s.v0, s.v1, s.v2, s.v3 ^^^ w)
       let u := sipRound^[4] (t.1 ^^^ w, t.2.1, t.2.2.1 ^^^ 0xff, t.2.2.2)
       { v0 := u.1, v1 := u.2.1, v2 := u.2.2.1, v3 := u.2.2.2
         cnt := s.cnt, current_word := w }) := by
  rw [setByte_mod256]
  simp only [Function.iterate_succ, Function.iterate_zero, Function.comp_apply, id_eq]
  refine SipHash.ext ?_ ?_ ?_ ?_ rfl rfl
  · rw [finalize_v0, mixCurrent_v0, mixCurrent_v1, mixCurrent_v2, mixCurrent_v3]
  · rw [finalize_v1, mixCurrent_v0, mixCurrent_v1, mixCurrent_v2, mixCurrent_v3]
  · rw [finalize_v2, mixCurrent_v0, mixCurrent_v1, mixCurrent_v2, mixCurrent_v3]
  · rw [finalize_v3, mixCurrent_v0, mixCurrent_v1, mixCurrent_v2, mixCurrent_v3]

set_option maxRecDepth 8192 in
/-- C2: the engine's `get64` digest equals the reference SipHash-2-4
function for every key and input, and in particular it reproduces the
officially published SipHash-2-4 test vectors bit-for-bit for the
standard test key on the empty string, a single-byte string, an exact
one-block string, and a two-block (15-byte) string. -/
theorem siphash_matches_reference_and_vectors :
    (∀ (k0 k1 : Nat) (m : List Nat), ((SipHash.init k0 k1).update m).get64 = sipRef24 k0 k1 m)
      ∧ ((SipHash.init 0x0706050403020100 0x0f0e0d0c0b0a0908).update []).get64
          = 0x726fdb47dd0e0e31
      ∧ ((SipHash.init 0x0706050403020100 0x0f0e0d0c0b0a0908).update [0x00]).get64
          = 0x74f839c593dc67fd
      ∧ ((SipHash.init 0x0706050403020100 0x0f0e0d0c0b0a0908).update
          [0, 1, 2, 3, 4, 5, 6, 7]).get64 = 0x93f5f5799a932462
      ∧ ((SipHash.init 0x0706050403020100 0x0f0e0d0c0b0a0908).update
          [0, 1, 2, 3, 4, 5, 6, 7, 8, 9, 10, 11, 12, 13, 14]).get64 = 0xa129ca6149be45e5 :=
  ⟨get64_update_init_eq_ref, by decide, by decide, by decide, by decide⟩

/-- C4 (amended): after any sequence of updates, `cnt` equals the total
byte count reduced modulo `2 ^ 64` (so it equals the total whenever
fewer than `2 ^ 64` bytes were absorbed), `cnt % 8` is the number of
unmixed bytes in the carry buffer, those bytes (the last `total % 8`
bytes of the stream) occupy buffer positions `0 .. cnt % 8 - 1`, and
every buffer byte at position `cnt % 8` or higher is zero. -/
theorem siphash_carry_buffer_invariant (k0 k1 : Nat) (chunks : List (List Nat)) :
    (List.foldl SipHash.update (SipHash.init k0 k1) chunks).cnt
        = chunks.flatten.length % 2 ^ 64
      ∧ (List.foldl SipHash.update (SipHash.init k0 k1) chunks).cnt % 8
        = chunks.flatten.length % 8
      ∧ (∀ i, i < chunks.flatten.length % 8 →
          getByte (List.foldl SipHash.update (SipHash.init k0 k1) chunks).current_word i
            = (chunks.flatten.drop (chunks.flatten.length - chunks.flatten.length % 8)).getD i 0
                % 256)
      ∧ (∀ i, chunks.flatten.length % 8 ≤ i →
          getByte (List.foldl SipHash.update (SipHash.init k0 k1) chunks).current_word i = 0) := by
  rw [foldl_update_absorbSpec]
  have hcnt : (absorbSpec (SipHash.init k0 k1) chunks.flatten).cnt
      = chunks.flatten.length % 2 ^ 64 := by
    show ((SipHash.init k0 k1).cnt + chunks.flatten.length) % 2 ^ 64 = _
    rw [show (SipHash.init k0 k1).cnt = 0 from rfl, Nat.zero_add]
  have hword : (absorbSpec (SipHash.init k0 k1) chunks.flatten).current_word
      = readLE (specTail chunks.flatten) := by
    show writeBytes 0 0 (specTail chunks.flatten) = _
    exact writeBytes_readLE _
  have htail : specTail chunks.flatten
      = chunks.flatten.drop (chunks.flatten.length - chunks.flatten.length % 8) :=
    specTail_eq_drop chunks.flatten
  have htlen : (specTail chunks.flatten).length = chunks.flatten.length % 8 := by
    rw [htail, List.length_drop]
    omega
  refine ⟨hcnt, ?_, ?_, ?_⟩
  · rw [hcnt, mod64_mod8]
  · intro i hi
    rw [hword, getByte_readLE _ i (by rw [htlen]; exact hi), htail]
  · intro i hi
    rw [hword]
    have hb : readLE (specTail chunks.flatten) < 2 ^ (8 * (chunks.flatten.length % 8)) := by
      rw [← htlen]
      exact readLE_lt _
    exact getByte_eq_zero hb hi

/-- C4 counterexample: once `2 ^ 64` bytes in total have been absorbed
(here via two updates of `2 ^ 63` zero bytes each), the `u64` counter
wraps, so `cnt` is no longer the total number of bytes passed to
`update`. -/
theorem siphash_cnt_wraps_counterexample :
    (List.foldl SipHash.update (SipHash.init 0 0)
        (List.replicate 2 (List.replicate (2 ^ 63) 0))).cnt
      ≠ (List.replicate 2 (List.replicate (2 ^ 63) (0 : Nat))).flatten.length := by
  have key : ∀ chunks : List (List Nat),
      (List.foldl SipHash.update (SipHash.init 0 0) chunks).cnt
        = chunks.flatten.length % 2 ^ 64 := by
    intro chunks
    rw [foldl_update_absorbSpec]
    show ((SipHash.init 0 0).cnt + chunks.flatten.length) % 2 ^ 64 = _
    rw [show (SipHash.init 0 0).cnt = 0 from rfl, Nat.zero_add]
  have hlen : (List.replicate 2 (List.replicate (2 ^ 63) (0 : Nat))).flatten.length = 2 ^ 64 := by
    rw [List.replicate_succ, List.replicate_succ, List.replicate_zero, List.flatten_cons,
      List.flatten_cons, List.flatten_nil, List.append_nil, List.length_append,
      List.length_replicate]
    norm_num
  rw [key, hlen, Nat.mod_self]
  norm_num

/-! ## Rotation and wraparound-subtraction cancellation -/

theorem rotl_eq (x b : Nat) (hx : x < 2 ^ 64) (hb1 : 0 < b) (hb2 : b < 64) :
    rotl x b = x % 2 ^ (64 - b) * 2 ^ b + x / 2 ^ (64 - b) := by
  have hpow : (2 : Nat) ^ (64 - b) * 2 ^ b = 2 ^ 64 := by
    rw [← pow_add]
    congr 1
    omega
  have hd : x / 2 ^ (64 - b) < 2 ^ b := by
    rw [Nat.div_lt_iff_lt_mul (Nat.pos_pow_of_pos _ (by norm_num))]
    calc x < 2 ^ 64 := hx
      _ = 2 ^ b * 2 ^ (64 - b) := by rw [← pow_add]; congr 1; omega
  have hr : x % 2 ^ (64 - b) < 2 ^ (64 - b) := Nat.mod_lt _ (Nat.pos_pow_of_pos _ (by norm_num))
  have hbound : x % 2 ^ (64 - b) * 2 ^ b + x / 2 ^ (64 - b) < 2 ^ 64 := by
    calc x % 2 ^ (64 - b) * 2 ^ b + x / 2 ^ (64 - b)
        < x % 2 ^ (64 - b) * 2 ^ b + 2 ^ b := Nat.add_lt_add_left hd _
      _ = (x % 2 ^ (64 - b) + 1) * 2 ^ b := by ring
      _ ≤ 2 ^ (64 - b) * 2 ^ b := Nat.mul_le_mul_right _ (by omega)
      _ = 2 ^ 64 := hpow
  unfold rotl
  rw [Nat.shiftLeft_eq, Nat.shiftRight_eq_div_pow]
  have hor : x * 2 ^ b ||| x / 2 ^ (64 - b) = x * 2 ^ b + x / 2 ^ (64 - b) := by
    rw [Nat.mul_comm x (2 ^ b)]
    exact (Nat.mul_add_lt_is_or hd x).symm
  rw [hor]
  calc (x * 2 ^ b + x / 2 ^ (64 - b)) % 2 ^ 64
      = ((2 ^ (64 - b) * (x / 2 ^ (64 - b)) + x % 2 ^ (64 - b)) * 2 ^ b + x / 2 ^ (64 - b))
          % 2 ^ 64 := by rw [Nat.div_add_mod]
    _ = (2 ^ 64 * (x / 2 ^ (64 - b)) + (x % 2 ^ (64 - b) * 2 ^ b + x / 2 ^ (64 - b)))
          % 2 ^ 64 := by rw [← hpow]; ring_nf
    _ = (x % 2 ^ (64 - b) * 2 ^ b + x / 2 ^ (64 - b)) % 2 ^ 64 := by rw [Nat.mul_add_mod]
    _ = x % 2 ^ (64 - b) * 2 ^ b + x / 2 ^ (64 - b) := Nat.mod_eq_of_lt hbound

theorem rotl_rotl (x b : Nat) (hx : x < 2 ^ 64) (hb1 : 0 < b) (hb2 : b < 64) :
    rotl (rotl x b) (64 - b) = x := by
  have hd : x / 2 ^ (64 - b) < 2 ^ b := by
    rw [Nat.div_lt_iff_lt_mul (Nat.pos_pow_of_pos _ (by norm_num))]
    calc x < 2 ^ 64 := hx
      _ = 2 ^ b * 2 ^ (64 - b) := by rw [← pow_add]; congr 1; omega
  have h1 := rotl_eq x b hx hb1 hb2
  have hy : rotl x b < 2 ^ 64 := rotl_lt x b
  have h2 := rotl_eq (rotl x b) (64 - b) hy (by omega) (by omega)
  rw [h2, h1]
  have hbb : 64 - (64 - b) = b := by omega
  rw [hbb]
  have hmod : (x % 2 ^ (64 - b) * 2 ^ b + x / 2 ^ (64 - b)) % 2 ^ b = x / 2 ^ (64 - b) := by
    rw [Nat.mul_comm (x % 2 ^ (64 - b)) (2 ^ b), Nat.mul_add_mod]
    exact Nat.mod_eq_of_lt hd
  have hdiv : (x % 2 ^ (64 - b) * 2 ^ b + x / 2 ^ (64 - b)) / 2 ^ b = x % 2 ^ (64 - b) := by
    rw [Nat.mul_comm (x % 2 ^ (64 - b)) (2 ^ b),
      Nat.mul_add_div (Nat.pos_pow_of_pos _ (by norm_num)),
      Nat.div_eq_of_lt hd, Nat.add_zero]
  rw [hmod, hdiv, Nat.mul_comm, Nat.div_add_mod]

theorem rotl_inv_13 (x : Nat) (hx : x < 2 ^ 64) : rotl (rotl x 13) 51 = x := by
  have h := rotl_rotl x 13 hx (by norm_num) (by norm_num)
  simpa using h

theorem rotl_inv_16 (x : Nat) (hx : x < 2 ^ 64) : rotl (rotl x 16) 48 = x := by
  have h := rotl_rotl x 16 hx (by norm_num) (by norm_num)
  simpa using h

theorem rotl_inv_17 (x : Nat) (hx : x < 2 ^ 64) : rotl (rotl x 17) 47 = x := by
  have h := rotl_rotl x 17 hx (by norm_num) (by norm_num)
  simpa using h

theorem rotl_inv_21 (x : Nat) (hx : x < 2 ^ 64) : rotl (rotl x 21) 43 = x := by
  have h := rotl_rotl x 21 hx (by norm_num) (by norm_num)
  simpa using h

theorem rotl_inv_32 (x : Nat) (hx : x < 2 ^ 64) : rotl (rotl x 32) 32 = x := by
  have h := rotl_rotl x 32 hx (by norm_num) (by norm_num)
  simpa using h

theorem rotl_inv_51 (x : Nat) (hx : x < 2 ^ 64) : rotl (rotl x 51) 13 = x := by
  have h := rotl_rotl x 51 hx (by norm_num) (by norm_num)
  simpa using h

theorem rotl_inv_48 (x : Nat) (hx : x < 2 ^ 64) : rotl (rotl x 48) 16 = x := by
  have h := rotl_rotl x 48 hx (by norm_num) (by norm_num)
  simpa using h

theorem rotl_inv_47 (x : Nat) (hx : x < 2 ^ 64) : rotl (rotl x 47) 17 = x := by
  have h := rotl_rotl x 47 hx (by norm_num) (by norm_num)
  simpa using h

theorem rotl_inv_43 (x : Nat) (hx : x < 2 ^ 64) : rotl (rotl x 43) 21 = x := by
  have h := rotl_rotl x 43 hx (by norm_num) (by norm_num)
  simpa using h

theorem sub64_add_cancel (x y : Nat) (hx : x < 2 ^ 64) : sub64 ((x + y) % 2 ^ 64) y = x := by
  unfold sub64
  omega

theorem add_sub64_cancel (x y : Nat) (hx : x < 2 ^ 64) : (sub64 x y + y) % 2 ^ 64 = x := by
  unfold sub64
  omega

set_option maxHeartbeats 1600000 in
theorem sipRoundInv_sipRound (a b c d : Nat) (ha : a < 2 ^ 64) (hb : b < 2 ^ 64)
    (hc : c < 2 ^ 64) (hd : d < 2 ^ 64) :
    sipRoundInv (sipRound (a, b, c, d)) = (a, b, c, d) := by
  simp only [sipRound, sipRoundInv]
  simp only [rotl_inv_13, rotl_inv_16, rotl_inv_17, rotl_inv_21, rotl_inv_32,
    Nat.xor_cancel_right, sub64_add_cancel, mod64_lt, rotl_lt, sub64_lt, xor64_lt,
    ha, hb, hc, hd]

set_option maxHeartbeats 1600000 in
theorem sipRound_sipRoundInv (a b c d : Nat) (ha : a < 2 ^ 64) (hb : b < 2 ^ 64)
    (hc : c < 2 ^ 64) (hd : d < 2 ^ 64) :
    sipRound (sipRoundInv (a, b, c, d)) = (a, b, c, d) := by
  simp only [sipRound, sipRoundInv]
  simp only [rotl_inv_51, rotl_inv_48, rotl_inv_47, rotl_inv_43, rotl_inv_32,
    Nat.xor_cancel_right, add_sub64_cancel, mod64_lt, rotl_lt, sub64_lt, xor64_lt,
    ha, hb, hc, hd]

set_option maxHeartbeats 1600000 in
/-- C7: the engine's mixing round is the standard SipRound: the fixed
add-rotate-XOR sequence with 64-bit wraparound addition and left
rotations by 13, 32, 16, 21, 17, 32 in SipRound order; it is a
permutation of the four 64-bit lanes (it has a two-sided inverse and
maps the domain to itself); it is applied exactly twice per absorbed
word (`mixLanes`), and finalization applies the length-word's two
rounds followed by exactly four more. -/
theorem siphash_round_is_permutation (a b c d : Nat)
    (ha : a < 2 ^ 64) (hb : b < 2 ^ 64) (hc : c < 2 ^ 64) (hd : d < 2 ^ 64) :
    sipRound (a, b, c, d) =
      (let x0 := (a + b) % 2 ^ 64
       let x1 := rotl b 13 ^^^ x0
       let x0r := rotl x0 32
       let x2 := (c + d) % 2 ^ 64
       let x3 := rotl d 16 ^^^ x2
       let y0 := (x0r + x3) % 2 ^ 64
       let y3 := rotl x3 21 ^^^ y0
       let y2 := (x2 + x1) % 2 ^ 64
       let y1 := rotl x1 17 ^^^ y2
       (y0, y1, rotl y2 32, y3))
      ∧ sipRoundInv (sipRound (a, b, c, d)) = (a, b, c, d)
      ∧ sipRound (sipRoundInv (a, b, c, d)) = (a, b, c, d)
      ∧ (sipRound (a, b, c, d)).1 < 2 ^ 64 ∧ (sipRound (a, b, c, d)).2.1 < 2 ^ 64
      ∧ (sipRound (a, b, c, d)).2.2.1 < 2 ^ 64 ∧ (sipRound (a, b, c, d)).2.2.2 < 2 ^ 64
      ∧ (∀ (v : Nat × Nat × Nat × Nat) (w : Nat), mixLanes v w =
          (let t := sipRound^[2] (v.1, v.2.1, v.2.2.1, v.2.2.2 ^^^ w)
           (t.1 ^^^ w, t.2.1, t.2.2.1, t.2.2.2)))
      ∧ (∀ s : SipHash, s.finalize =
          (let w := setByte s.current_word 7 (s.cnt % 256)
           let t := sipRound^[2] (s.v0, s.v1, s.v2, s.v3 ^^^ w)
           let u := sipRound^[4] (t.1 ^^^ w, t.2.1, t.2.2.1 ^^^ 0xff, t.2.2.2)
           { v0 := u.1, v1 := u.2.1, v2 := u.2.2.1, v3 := u.2.2.2
             cnt := s.cnt, current_word := w })) := by
  refine ⟨rfl, sipRoundInv_sipRound a b c d ha hb hc hd,
    sipRound_sipRoundInv a b c d ha hb hc hd,
    (sipRound_lt _).1, (sipRound_lt _).2.1, (sipRound_lt _).2.2.1, (sipRound_lt _).2.2.2,
    ?_, ?_⟩
  · intro v w
    rfl
  · intro s
    rw [setByte_mod256]
    simp only [Function.iterate_succ, Function.iterate_zero, Function.comp_apply, id_eq]
    refine SipHash.ext ?_ ?_ ?_ ?_ rfl rfl
    · rw [finalize_v0, mixCurrent_v0, mixCurrent_v1, mixCurrent_v2, mixCurrent_v3]
    · rw [finalize_v1, mixCurrent_v0, mixCurrent_v1, mixCurrent_v2, mixCurrent_v3]
    · rw [finalize_v2, mixCurrent_v0, mixCurrent_v1, mixCurrent_v2, mixCurrent_v3]
    · rw [finalize_v3, mixCurrent_v0, mixCurrent_v1, mixCurrent_v2, mixCurrent_v3]

theorem siphash_round_is_permutation_witness :
    sipRoundInv (sipRound (1, 2, 3, 4)) = (1, 2, 3, 4)
      ∧ sipRound (sipRoundInv (1, 2, 3, 4)) = (1, 2, 3, 4) :=
  ⟨(siphash_round_is_permutation 1 2 3 4 (by norm_num) (by norm_num) (by norm_num)
      (by norm_num)).2.1,
   (siphash_round_is_permutation 1 2 3 4 (by norm_num) (by norm_num) (by norm_num)
      (by norm_num)).2.2.1⟩

/-! ## Pointer/list correspondence for `update` -/

theorem bytesFrom_length (mem : Nat → Nat) : ∀ (n p : Nat), (bytesFrom mem p n).length = n := by
  intro n
  induction n with
  | zero => intro p; rfl
  | succ n ih =>
    intro p
    rw [bytesFrom, List.length_cons, ih]

theorem bytesFrom_congr (mem1 mem2 : Nat → Nat) :
    ∀ (n p : Nat), (∀ i, i < n → mem1 (p + i) = mem2 (p + i)) →
      bytesFrom mem1 p n = bytesFrom mem2 p n := by
  intro n
  induction n with
  | zero => intro p _; rfl
  | succ n ih =>
    intro p h
    rw [bytesFrom, bytesFrom]
    have h0 : mem1 p = mem2 p := by
      have := h 0 (by omega)
      simpa using this
    rw [h0, ih (p + 1) (fun i hi => by
      have := h (i + 1) (by omega)
      rwa [show p + (i + 1) = p + 1 + i by omega] at this)]

theorem bytesFrom_add (mem : Nat → Nat) : ∀ (k n p : Nat),
    bytesFrom mem p (k + n) = bytesFrom mem p k ++ bytesFrom mem (p + k) n := by
  intro k
  induction k with
  | zero =>
    intro n p
    rw [Nat.zero_add, show bytesFrom mem p 0 = [] from rfl, List.nil_append, Nat.add_zero]
  | succ k ih =>
    intro n p
    rw [show k + 1 + n = (k + n) + 1 by omega, bytesFrom, bytesFrom, List.cons_append,
      ih n (p + 1), show p + 1 + k = p + (k + 1) by omega]

theorem bytesFrom_drop (mem : Nat → Nat) : ∀ (k n p : Nat),
    (bytesFrom mem p n).drop k = bytesFrom mem (p + k) (n - k) := by
  intro k
  induction k with
  | zero =>
    intro n p
    rw [List.drop_zero, Nat.add_zero, Nat.sub_zero]
  | succ k ih =>
    intro n p
    cases n with
    | zero => rw [show bytesFrom mem p 0 = [] from rfl, List.drop_nil, Nat.zero_sub]; rfl
    | succ n =>
      rw [bytesFrom, List.drop_succ_cons, ih n (p + 1),
        show p + 1 + k = p + (k + 1) by omega, Nat.succ_sub_succ]

theorem fillCarry_length_le : ∀ (l : List Nat) (s : SipHash),
    (fillCarry s l).2.length ≤ l.length := by
  intro l
  induction l with
  | nil => intro s; exact Nat.le_refl _
  | cons b rest ih =>
    intro s
    rw [fillCarry]
    by_cases h : s.cnt % 8 = 0
    · rw [if_pos h]
    · rw [if_neg h]
      exact Nat.le_trans (ih _) (by rw [List.length_cons]; omega)

theorem fillCarryMem_eq : ∀ (n : Nat) (s : SipHash) (mem : Nat → Nat) (p : Nat),
    fillCarryMem s mem p (p + n)
      = ((fillCarry s (bytesFrom mem p n)).1,
         p + (n - (fillCarry s (bytesFrom mem p n)).2.length)) := by
  intro n
  induction n with
  | zero =>
    intro s mem p
    rw [fillCarryMem, dif_neg (by omega)]
    rfl
  | succ n ih =>
    intro s mem p
    by_cases hcnt : s.cnt % 8 = 0
    · rw [fillCarryMem, dif_neg (by omega), show bytesFrom mem p (n + 1) = mem p :: bytesFrom mem (p + 1) n from rfl,
        fillCarry, if_pos hcnt]
      simp only [Prod.mk.injEq, List.length_cons, bytesFrom_length]
      exact ⟨trivial, by omega⟩
    · rw [fillCarryMem, dif_pos ⟨hcnt, by omega⟩,
        show p + (n + 1) = (p + 1) + n by omega, ih _ mem (p + 1),
        show bytesFrom mem p (n + 1) = mem p :: bytesFrom mem (p + 1) n from rfl,
        fillCarry, if_neg hcnt]
      have hle := fillCarry_length_le (bytesFrom mem (p + 1) n)
        { s with current_word := setByte s.current_word (s.cnt % 8) (mem p), cnt := (s.cnt + 1) % 2 ^ 64 }
      rw [bytesFrom_length] at hle
      simp only [Prod.mk.injEq]
      exact ⟨trivial, by omega⟩

theorem absorbWordsMem_eq : ∀ (n : Nat) (s : SipHash) (mem : Nat → Nat) (p : Nat),
    (absorbWordsMem s mem p (p + n)).1.v0
        = (specLanes (s.v0, s.v1, s.v2, s.v3) (bytesFrom mem p n)).1
      ∧ (absorbWordsMem s mem p (p + n)).1.v1
        = (specLanes (s.v0, s.v1, s.v2, s.v3) (bytesFrom mem p n)).2.1
      ∧ (absorbWordsMem s mem p (p + n)).1.v2
        = (specLanes (s.v0, s.v1, s.v2, s.v3) (bytesFrom mem p n)).2.2.1
      ∧ (absorbWordsMem s mem p (p + n)).1.v3
        = (specLanes (s.v0, s.v1, s.v2, s.v3) (bytesFrom mem p n)).2.2.2
      ∧ (absorbWordsMem s mem p (p + n)).1.cnt = s.cnt
      ∧ (absorbWordsMem s mem p (p + n)).2 = p + (n - n % 8) := by
  intro n
  induction n using Nat.strong_induction_on with
  | _ n ih =>
    intro s mem p
    by_cases h8 : 8 ≤ n
    · have hsplit : bytesFrom mem p n = bytesFrom mem p 8 ++ bytesFrom mem (p + 8) (n - 8) := by
        rw [← bytesFrom_add, show 8 + (n - 8) = n by omega]
      have hblk : bytesFrom mem p 8
          = [mem p, mem (p + 1), mem (p + 2), mem (p + 3), mem (p + 4), mem (p + 5),
             mem (p + 6), mem (p + 7)] := rfl
      have hlanes : ∀ q : Nat × Nat × Nat × Nat,
          specLanes q (bytesFrom mem p n)
            = specLanes (mixLanes q (readLE [mem p, mem (p + 1), mem (p + 2), mem (p + 3),
                mem (p + 4), mem (p + 5), mem (p + 6), mem (p + 7)])) (bytesFrom mem (p + 8) (n - 8)) := by
        intro q
        rw [hsplit, specLanes_block _ _ _ (by rw [hblk]; rfl), hblk]
      have hstep : absorbWordsMem s mem p (p + n)
          = absorbWordsMem
              (mixCurrent { s with current_word := readLE [mem p, mem (p + 1), mem (p + 2),
                mem (p + 3), mem (p + 4), mem (p + 5), mem (p + 6), mem (p + 7)] })
              mem (p + 8) (p + n) := by
        rw [absorbWordsMem, if_pos (by omega)]
      rw [hstep, show p + n = (p + 8) + (n - 8) by omega]
      have := ih (n - 8) (by omega)
        (mixCurrent { s with current_word := readLE [mem p, mem (p + 1), mem (p + 2),
          mem (p + 3), mem (p + 4), mem (p + 5), mem (p + 6), mem (p + 7)] }) mem (p + 8)
      obtain ⟨h0, h1, h2, h3, hc, hp⟩ := this
      refine ⟨?_, ?_, ?_, ?_, ?_, ?_⟩
      · rw [h0, hlanes]
        rfl
      · rw [h1, hlanes]
        rfl
      · rw [h2, hlanes]
        rfl
      · rw [h3, hlanes]
        rfl
      · rw [hc]
        rfl
      · rw [hp]
        have : n % 8 = (n - 8) % 8 := by omega
        omega
    · have hstop : absorbWordsMem s mem p (p + n) = (s, p) := by
        rw [absorbWordsMem, if_neg (by omega)]
      have hsmall : (bytesFrom mem p n).length < 8 := by
        rw [bytesFrom_length]
        omega
      rw [hstop, specLanes_small _ _ hsmall]
      refine ⟨rfl, rfl, rfl, rfl, rfl, ?_⟩
      have : n % 8 = n := Nat.mod_eq_of_lt (by omega)
      omega

theorem fillCarry_suffix : ∀ (l : List Nat) (s : SipHash),
    ∃ k, k ≤ l.length ∧ (fillCarry s l).2 = l.drop k := by
  intro l
  induction l with
  | nil => intro s; exact ⟨0, Nat.le_refl _, rfl⟩
  | cons b rest ih =>
    intro s
    rw [fillCarry]
    by_cases h : s.cnt % 8 = 0
    · rw [if_pos h]
      exact ⟨0, by omega, rfl⟩
    · rw [if_neg h]
      obtain ⟨k, hk, heq⟩ := ih { s with current_word := setByte s.current_word (s.cnt % 8) b, cnt := (s.cnt + 1) % 2 ^ 64 }
      exact ⟨k + 1, by rw [List.length_cons]; omega, by rw [List.drop_succ_cons]; exact heq⟩

theorem absorbPhase_eq (s3 : SipHash) (mem : Nat → Nat) (p e : Nat) (hpe : p ≤ e) :
    ({ (absorbWordsMem s3 mem p e).1 with
        current_word := writeBytes 0 0 (bytesFrom mem (absorbWordsMem s3 mem p e).2
          (e - (absorbWordsMem s3 mem p e).2)) } : SipHash)
      = absorbWords s3 (bytesFrom mem p (e - p)) := by
  set L := e - p with hL
  have he : e = p + L := by omega
  rw [he]
  have haw := absorbWordsMem_eq L s3 mem p
  obtain ⟨h0, h1, h2, h3, hc, hp2⟩ := haw
  rw [absorbWords_eq]
  refine SipHash.ext ?_ ?_ ?_ ?_ ?_ ?_
  · rw [show ({ (absorbWordsMem s3 mem p (p + L)).1 with
        current_word := writeBytes 0 0 (bytesFrom mem (absorbWordsMem s3 mem p (p + L)).2
          (p + L - (absorbWordsMem s3 mem p (p + L)).2)) } : SipHash).v0
      = (absorbWordsMem s3 mem p (p + L)).1.v0 from rfl, h0]
  · rw [show ({ (absorbWordsMem s3 mem p (p + L)).1 with
        current_word := writeBytes 0 0 (bytesFrom mem (absorbWordsMem s3 mem p (p + L)).2
          (p + L - (absorbWordsMem s3 mem p (p + L)).2)) } : SipHash).v1
      = (absorbWordsMem s3 mem p (p + L)).1.v1 from rfl, h1]
  · rw [show ({ (absorbWordsMem s3 mem p (p + L)).1 with
        current_word := writeBytes 0 0 (bytesFrom mem (absorbWordsMem s3 mem p (p + L)).2
          (p + L - (absorbWordsMem s3 mem p (p + L)).2)) } : SipHash).v2
      = (absorbWordsMem s3 mem p (p + L)).1.v2 from rfl, h2]
  · rw [show ({ (absorbWordsMem s3 mem p (p + L)).1 with
        current_word := writeBytes 0 0 (bytesFrom mem (absorbWordsMem s3 mem p (p + L)).2
          (p + L - (absorbWordsMem s3 mem p (p + L)).2)) } : SipHash).v3
      = (absorbWordsMem s3 mem p (p + L)).1.v3 from rfl, h3]
  · rw [show ({ (absorbWordsMem s3 mem p (p + L)).1 with
        current_word := writeBytes 0 0 (bytesFrom mem (absorbWordsMem s3 mem p (p + L)).2
          (p + L - (absorbWordsMem s3 mem p (p + L)).2)) } : SipHash).cnt
      = (absorbWordsMem s3 mem p (p + L)).1.cnt from rfl, hc]
  · rw [show ({ (absorbWordsMem s3 mem p (p + L)).1 with
        current_word := writeBytes 0 0 (bytesFrom mem (absorbWordsMem s3 mem p (p + L)).2
          (p + L - (absorbWordsMem s3 mem p (p + L)).2)) } : SipHash).current_word
      = writeBytes 0 0 (bytesFrom mem (absorbWordsMem s3 mem p (p + L)).2
          (p + L - (absorbWordsMem s3 mem p (p + L)).2)) from rfl, hp2,
      specTail_eq_drop, bytesFrom_length, bytesFrom_drop,
      show p + L - (p + (L - L % 8)) = L - (L - L % 8) by omega,
      show L - (L - L % 8) = L % 8 by omega]

theorem updateMem_eq_update (s : SipHash) (mem : Nat → Nat) (n : Nat) :
    s.updateMem mem 0 n = s.update (bytesFrom mem 0 n) := by
  by_cases hcnt : s.cnt % 8 = 0
  · simp only [SipHash.updateMem, SipHash.update]
    rw [if_neg (by omega), if_neg (by omega),
      absorbPhase_eq _ mem 0 n (by omega),
      show (n : Nat) - 0 = n by omega, bytesFrom_length]
  · simp only [SipHash.updateMem, SipHash.update]
    rw [if_pos hcnt, if_pos hcnt]
    have hfc := fillCarryMem_eq n s mem 0
    rw [show (0 : Nat) + n = n by omega] at hfc
    rw [hfc]
    obtain ⟨k, hk, hsuf⟩ := fillCarry_suffix (bytesFrom mem 0 n) s
    rw [bytesFrom_length] at hk
    have hL : (fillCarry s (bytesFrom mem 0 n)).2.length = n - k := by
      rw [hsuf, List.length_drop, bytesFrom_length]
    by_cases hret : (fillCarry s (bytesFrom mem 0 n)).1.cnt % 8 ≠ 0
    · rw [if_pos hret, if_pos hret]
    · rw [if_neg hret, if_neg hret]
      have hdropk : (fillCarry s (bytesFrom mem 0 n)).2 = bytesFrom mem k (n - k) := by
        rw [hsuf, bytesFrom_drop, Nat.zero_add]
      rw [hL, hdropk,
        show (0 : Nat) + (n - (n - k)) = k by omega,
        absorbPhase_eq _ mem k n (by omega)]

/-- C9: Bounded input access. The pointer-level update reads only input bytes at
offsets 0 through size - 1: it coincides with the pure update on the byte list
extracted from exactly that range, and two memories that agree on offsets below
size (but may differ arbitrarily at or past size) produce identical engine
states, for every size including the boundary cases 0, 8, 9 and 16. -/
theorem siphash_update_bounded_access (s : SipHash) (mem1 mem2 : Nat → Nat) (n : Nat)
    (h : ∀ i, i < n → mem1 i = mem2 i) :
    s.updateMem mem1 0 n = s.update (bytesFrom mem1 0 n) ∧
    s.updateMem mem1 0 n = s.updateMem mem2 0 n := by
  have hb : bytesFrom mem1 0 n = bytesFrom mem2 0 n := by
    apply bytesFrom_congr
    intro i hi
    have := h i hi
    simpa using this
  refine ⟨updateMem_eq_update s mem1 n, ?_⟩
  rw [updateMem_eq_update s mem1 n, updateMem_eq_update s mem2 n, hb]

theorem siphash_update_bounded_access_witness :
    (∀ i, i < 9 → (fun j => j + 100) i = (fun j : Nat => if j < 9 then j + 100 else 255) i) ∧
    ((SipHash.init 0 0).updateMem (fun j => j + 100) 0 9
        = (SipHash.init 0 0).update (bytesFrom (fun j => j + 100) 0 9) ∧
      (SipHash.init 0 0).updateMem (fun j => j + 100) 0 9
        = (SipHash.init 0 0).updateMem (fun j : Nat => if j < 9 then j + 100 else 255) 0 9) :=
  ⟨fun i hi => by simp [hi],
    siphash_update_bounded_access (SipHash.init 0 0) (fun j => j + 100)
      (fun j : Nat => if j < 9 then j + 100 else 255) 9 (fun i hi => by simp [hi])⟩
